import Mathlib

/- Verification of the wsbackup retention and orchestration core.

The definitions below are a shallow embedding of wsbackup.py (the current
revision of the script; wsbackup_transfer.py is an older revision of the
same program).  Python strings are Lean Strings, Python lists are Lean
Lists, datetimes and timedeltas are rationals measured in days (the unit
used by the timedelta constructor in the source), and the stateful
orchestration code is modelled by explicit state passing.  Snapshot labels
are identified with their parsed timestamps, which is justified by the
round-trip property of the label format.  -/

namespace WSBackup

/- ## String primitives

re.match with a pattern free of metacharacters other than the alternation
used in is_dry_run is prefix matching, and str.strip removes whitespace at
both ends.  Both are modelled on the underlying character lists.  -/

/-- Prefix test on character lists, modelling re.match of a literal pattern
and str.startswith.  -/
def matchPrefix (pat : List Char) (s : List Char) : Bool :=
  pat.isPrefixOf s

/-- Python str.strip: drop whitespace from both ends.  -/
def pyStrip (s : String) : List Char :=
  ((s.data.dropWhile Char.isWhitespace).reverse.dropWhile Char.isWhitespace).reverse

/-- is_dry_run, wsbackup.py lines 110 to 114: some option, once stripped,
matches the pattern that is an alternation of a dash n prefix and a
double-dash dry-run prefix.  -/
def is_dry_run (rsync_opts : List String) : Bool :=
  rsync_opts.any (fun opt =>
    matchPrefix "-n".data (pyStrip opt) || matchPrefix "--dry-run".data (pyStrip opt))

/-- The inner removal loop of merge_opts, lines 126 to 130: scan opts and
remove the first entry equal to no_opt or starting with no_opt followed by
a space.  -/
def removeFirstMatch (no_opt : List Char) : List String → List String
  | [] => []
  | opt :: rest =>
      if no_opt == opt.data || matchPrefix (no_opt ++ [' ']) opt.data then rest
      else opt :: removeFirstMatch no_opt rest

/-- merge_opts, wsbackup.py lines 117 to 132: keep only new options that
start with a dash, extract negation entries starting with the letters n, o
and a dash, drop their first two characters, remove the first matching
existing option for each, and append the filtered new options.  -/
def merge_opts (opts new_opts : List String) : List String :=
  let new_opts2 := new_opts.filter (fun o => matchPrefix "-".data o.data)
  let no_opts := (new_opts2.filter (fun o => matchPrefix "no-".data o.data)).map
    (fun o => o.data.drop 2)
  let opts2 := no_opts.foldl (fun acc n => removeFirstMatch n acc) opts
  opts2 ++ new_opts2

/-- The built-in default rsync options, wsbackup.py lines 226 to 227.  -/
def default_rsync_opts : List String :=
  ["--archive", "-hhh", "--delete", "--stats", "--chmod=u+rw"]

/- ## Retention tiers -/

/-- One row of the aging table: minimum spacing and age bound, both in
days; a bound of minus one marks the unbounded final tier.  -/
structure AgingParam where
  spacing : ℚ
  bound : ℚ
deriving DecidableEq

/-- The default aging parameter table, wsbackup.py lines 234 to 240.  -/
def default_aging_params : List AgingParam :=
  [⟨0.5/24, 2⟩, ⟨1, 14⟩, ⟨7, 60⟩, ⟨30, 730⟩, ⟨365, -1⟩]

/- ## Lock manager -/

/-- Outcome of sending the no-op signal 0 to a process, os.kill(pid, 0):
either no exception, or an OSError whose two relevant kinds are
distinguished.  A permission error is raised when the process exists but
belongs to another user.  -/
inductive KillOutcome where
  | success
  | errNoSuchProcess
  | errPermissionDenied
deriving DecidableEq

/-- pid_running, wsbackup.py lines 26 to 33: any OSError is caught and
yields false; only an exception-free call yields true.  -/
def pid_running (outcome : KillOutcome) : Bool :=
  match outcome with
  | .success => true
  | .errNoSuchProcess => false
  | .errPermissionDenied => false

/-- The liveness rule in the words of the specification, kept separate for
comparison with pid_running: a no-such-process outcome means not running,
any other outcome means running.  -/
def pid_running_spec (outcome : KillOutcome) : Bool :=
  match outcome with
  | .errNoSuchProcess => false
  | _ => true

/-- Ambient process facts the lock manager consults: the PID of the
current process and the outcome of signalling any given PID.  -/
structure LockEnv where
  pid : ℕ
  kill : ℕ → KillOutcome

/-- Result of lock acquisition.  -/
inductive AcquireOutcome where
  | acquired (ghostWarning : Bool)
  | lockHeld (ownerPid : ℕ)
deriving DecidableEq

/-- Lock acquisition: check_lockfile, wsbackup.py lines 267 to 282,
followed by writing the current PID into the lock file, lines 152 to 154.
The lock file state is the recorded PID when the file exists.  When the
recorded PID tests as running, backup_error raises and the file is left
untouched; otherwise an informational ghost-lock message is logged and the
file is overwritten.  -/
def acquire_lock (env : LockEnv) (lockfile : Option ℕ) : Option ℕ × AcquireOutcome :=
  match lockfile with
  | some lockpid =>
      if pid_running (env.kill lockpid) then (some lockpid, .lockHeld lockpid)
      else (some env.pid, .acquired true)
  | none => (some env.pid, .acquired false)

/- ## Helper lemmas for merge_opts -/

theorem matchPrefix_dash_not_no (o : List Char)
    (h : matchPrefix "-".data o = true) : matchPrefix "no-".data o = false := by
  cases o with
  | nil => simp [matchPrefix, List.isPrefixOf] at h
  | cons c t =>
      simp [matchPrefix, List.isPrefixOf] at h ⊢
      rintro rfl
      simp at h

theorem merge_opts_no_opts_nil (new_opts : List String) :
    (new_opts.filter (fun o => matchPrefix "-".data o.data)).filter
      (fun o => matchPrefix "no-".data o.data) = [] := by
  rw [List.filter_eq_nil_iff]
  intro o ho
  rw [List.mem_filter] at ho
  simp [matchPrefix_dash_not_no o.data ho.2]

/- ## C9 and C10 theorems -/

/-- C9: the claim states that a new option prefixed by the characters n, o
and a dash removes matching existing options and contributes nothing
itself.  In the code the negation branch is dead: entries are first
filtered to those starting with a dash, and no such entry can also start
with the letter n, so the list of negations is always empty and merging
always just appends the dash-prefixed new options.  At the failing input,
an existing option equal to what the negation entry names survives.  -/
theorem merge_opts_negation_never_fires :
    (∀ opts new_opts : List String,
        merge_opts opts new_opts
          = opts ++ new_opts.filter (fun o => matchPrefix "-".data o.data)) ∧
    merge_opts ["-delete"] ["no--delete"] = ["-delete"] := by
  constructor
  · intro opts new_opts
    simp only [merge_opts, merge_opts_no_opts_nil, List.map_nil, List.foldl_nil]
  · decide

/-- C10: the first row of the default aging table.  The table has five
rows and the claimed bounds, but the first spacing is 0.5 divided by 24
days, which is one forty-eighth of a day, thirty minutes, not the twelve
hours (half a day) the claim states.  -/
theorem default_aging_params_first_spacing :
    (default_aging_params.map AgingParam.spacing).head? = some (1/48) ∧
    ((1:ℚ)/48) * (24 * 60) = 30 ∧
    ¬ ((1:ℚ)/48 = 1/2) := by
  refine ⟨?_, by norm_num, by norm_num⟩
  simp only [default_aging_params, List.map_cons, List.head?_cons, Option.some.injEq]
  norm_num

/-- C10 amended: the default table is five tiers with spacings, in days,
of one forty-eighth (thirty minutes), one, seven, thirty and three hundred
sixty-five, below bounds of two, fourteen, sixty and seven hundred thirty
days, the last tier being unbounded (bound minus one).  -/
theorem default_aging_params_table :
    default_aging_params.length = 5 ∧
    default_aging_params.map AgingParam.spacing = [1/48, 1, 7, 30, 365] ∧
    default_aging_params.map AgingParam.bound = [2, 14, 60, 730, -1] := by
  refine ⟨rfl, ?_, ?_⟩
  · simp only [default_aging_params, List.map_cons, List.map_nil]
    norm_num
  · simp only [default_aging_params, List.map_cons, List.map_nil]

/- ## C6 theorems -/

/-- C6: at the concrete outcome of a permission error, the spec rule says
the process is running, but the code treats any OSError as not running, so
acquisition on a lock file recorded for a live process owned by another
user succeeds and overwrites the lock instead of failing.  -/
theorem acquire_lock_permission_error :
    pid_running_spec .errPermissionDenied = true ∧
    pid_running .errPermissionDenied = false ∧
    acquire_lock ⟨42, fun _ => .errPermissionDenied⟩ (some 7)
      = (some 42, .acquired true) :=
  ⟨rfl, rfl, rfl⟩

/-- C6 amended: liveness is decided by the no-op signal with running
meaning the signal raised no error at all; acquisition on a lock file
whose recorded PID tests as running fails with the lock-held outcome and
leaves the lock file untouched, and on a PID whose signal raises any
OSError it succeeds, warns about the ghost lock, and overwrites the file
with the current PID.  -/
theorem acquire_lock_live_dead (env : LockEnv) (lockpid : ℕ) :
    (∀ k, pid_running k = true ↔ k = .success) ∧
    (env.kill lockpid = .success →
        acquire_lock env (some lockpid) = (some lockpid, .lockHeld lockpid)) ∧
    (env.kill lockpid ≠ .success →
        acquire_lock env (some lockpid) = (some env.pid, .acquired true)) := by
  refine ⟨fun k => by cases k <;> simp [pid_running], ?_, ?_⟩
  · intro h
    simp [acquire_lock, h, pid_running]
  · intro h
    cases hk : env.kill lockpid
    · exact absurd hk h
    · simp [acquire_lock, hk, pid_running]
    · simp [acquire_lock, hk, pid_running]

/-- Witness for the amended C6 theorem at a live owner and at a dead
owner.  -/
theorem acquire_lock_live_dead_witness :
    acquire_lock ⟨42, fun _ => .success⟩ (some 7) = (some 7, .lockHeld 7) ∧
    acquire_lock ⟨42, fun _ => .errNoSuchProcess⟩ (some 7) = (some 42, .acquired true) :=
  ⟨(acquire_lock_live_dead ⟨42, fun _ => .success⟩ 7).2.1 rfl,
   (acquire_lock_live_dead ⟨42, fun _ => .errNoSuchProcess⟩ 7).2.2 (by simp)⟩

/- ## Retention policy engine

sort_by_age, wsbackup.py lines 346 to 377, and the thinning loop of
prune_backup, lines 379 to 417.  Snapshot labels are their parsed
timestamps, as rationals in days.  -/

/-- The inner tier scan of sort_by_age, lines 365 to 369: the first index
whose bound (as a timedelta in days) strictly exceeds the age now minus
timestamp, or whose bound equals minus one.  -/
def findAgeIndex (now t : ℚ) : List AgingParam → Option ℕ
  | [] => none
  | p :: ps =>
      if now - t < p.bound ∨ p.bound = -1 then some 0
      else (findAgeIndex now t ps).map (· + 1)

/-- Result of sort_by_age: one bucket of timestamps per tier, oldest to
newest, plus the immediate deletions.  -/
structure SortResult where
  backups : List (List ℚ)
  deletions : List ℚ
deriving DecidableEq

/-- The body of the classification loop of sort_by_age, lines 362 to 376:
append the snapshot to the deletions when no tier accepts it, otherwise to
the bucket of its tier.  -/
def sortStep (now : ℚ) (params : List AgingParam) (acc : SortResult) (t : ℚ) :
    SortResult :=
  match findAgeIndex now t params with
  | none => { acc with deletions := acc.deletions ++ [t] }
  | some i => { acc with backups := acc.backups.set i (acc.backups.getD i [] ++ [t]) }

/-- sort_by_age, lines 346 to 377: sort ascending, then classify each
snapshot in order.  -/
def sort_by_age (now : ℚ) (params : List AgingParam) (backup_list : List ℚ) :
    SortResult :=
  (backup_list.mergeSort (fun a b => decide (a ≤ b))).foldl
    (sortStep now params) ⟨params.map (fun _ => []), []⟩

/-- The spacing walk of prune_backup, lines 408 to 413: a candidate closer
to the kept reference than the spacing is deleted, otherwise it becomes
the new reference.  -/
def thinWalk (spacing prev : ℚ) : List ℚ → List ℚ
  | [] => []
  | b :: rest =>
      if b - prev < spacing then b :: thinWalk spacing prev rest
      else thinWalk spacing b rest

/-- One iteration of the pruning loop, lines 399 to 413: tiers with fewer
than three members are skipped; otherwise the newest member is set aside
and the walk starts from the oldest member as reference.  -/
def tierDeletions (spacing : ℚ) (subset : List ℚ) : List ℚ :=
  if subset.length < 3 then []
  else
    match subset.dropLast with
    | [] => []
    | prev :: rest => thinWalk spacing prev rest

/-- The deletions computed by prune_backup, lines 384 to 417: the
immediate deletions from sort_by_age followed by the thinning deletions of
each tier in order.  -/
def prune_deletions (now : ℚ) (params : List AgingParam) (backup_list : List ℚ) :
    List ℚ :=
  let r := sort_by_age now params backup_list
  r.deletions ++
    ((r.backups.zip params).map (fun bp => tierDeletions bp.2.spacing bp.1)).flatten

/- ## Characterization of sort_by_age -/

theorem findAgeIndex_lt_length (now t : ℚ) (params : List AgingParam) (i : ℕ)
    (h : findAgeIndex now t params = some i) : i < params.length := by
  induction params generalizing i with
  | nil => simp [findAgeIndex] at h
  | cons p ps ih =>
      rw [findAgeIndex] at h
      split at h
      · simp only [Option.some.injEq] at h
        subst h
        simp
      · rw [Option.map_eq_some'] at h
        obtain ⟨j, hj, rfl⟩ := h
        simpa using ih j hj

theorem foldl_sortStep_deletions (now : ℚ) (params : List AgingParam)
    (l : List ℚ) (acc : SortResult) :
    (l.foldl (sortStep now params) acc).deletions
      = acc.deletions ++ l.filter (fun t => (findAgeIndex now t params).isNone) := by
  induction l generalizing acc with
  | nil => simp
  | cons t l ih =>
      rw [List.foldl_cons, ih]
      rw [sortStep]
      cases h : findAgeIndex now t params with
      | none => simp [List.filter_cons, h, List.append_assoc]
      | some i => simp [List.filter_cons, h]

theorem foldl_sortStep_length (now : ℚ) (params : List AgingParam)
    (l : List ℚ) (acc : SortResult) :
    (l.foldl (sortStep now params) acc).backups.length = acc.backups.length := by
  induction l generalizing acc with
  | nil => rfl
  | cons t l ih =>
      rw [List.foldl_cons, ih, sortStep]
      cases h : findAgeIndex now t params <;> simp

theorem foldl_sortStep_backups (now : ℚ) (params : List AgingParam)
    (l : List ℚ) (acc : SortResult) (hlen : acc.backups.length = params.length)
    (i : ℕ) :
    (l.foldl (sortStep now params) acc).backups[i]?
      = acc.backups[i]?.map
          (· ++ l.filter (fun t => decide (findAgeIndex now t params = some i))) := by
  induction l generalizing acc with
  | nil => simp
  | cons t l ih =>
      rw [List.foldl_cons]
      have hstep : (sortStep now params acc t).backups.length = params.length := by
        rw [sortStep]
        cases h : findAgeIndex now t params <;> simp [hlen]
      rw [ih _ hstep, sortStep]
      cases h : findAgeIndex now t params with
      | none => simp [List.filter_cons, h]
      | some j =>
          have hj : j < acc.backups.length := hlen ▸ findAgeIndex_lt_length now t params j h
          by_cases hij : i = j
          · subst hij
            rw [List.getElem?_set_self']
            have hsome : acc.backups[i]? = some acc.backups[i] :=
              List.getElem?_eq_getElem hj
            rw [hsome, List.getD_eq_getElem _ _ hj]
            simp [List.filter_cons, h, List.append_assoc]
          · have hji : j ≠ i := fun hh => hij hh.symm
            rw [List.getElem?_set_ne hji]
            simp [List.filter_cons, h, hji]

/-- The bucket of tier i collects, in order, the sorted snapshots whose
first accepting tier is i.  -/
theorem sort_by_age_getD (now : ℚ) (params : List AgingParam) (bl : List ℚ)
    (i : ℕ) :
    (sort_by_age now params bl).backups.getD i []
      = (bl.mergeSort (fun a b => decide (a ≤ b))).filter
          (fun t => decide (findAgeIndex now t params = some i)) := by
  rw [sort_by_age, List.getD_eq_getD_get?, List.get?_eq_getElem?,
    foldl_sortStep_backups _ _ _ _ (by simp) i]
  by_cases h : i < params.length
  · rw [List.getElem?_map, List.getElem?_eq_getElem h]
    simp
  · rw [List.getElem?_map]
    rw [List.getElem?_eq_none (by simpa using le_of_not_lt h)]
    simp only [Option.map_none', Option.getD_none]
    symm
    rw [List.filter_eq_nil_iff]
    intro t ht
    simp only [decide_eq_true_eq]
    intro hc
    exact h (findAgeIndex_lt_length now t params i hc)

/-- The immediate deletions of sort_by_age are, in order, the sorted
snapshots accepted by no tier.  -/
theorem sort_by_age_deletions (now : ℚ) (params : List AgingParam) (bl : List ℚ) :
    (sort_by_age now params bl).deletions
      = (bl.mergeSort (fun a b => decide (a ≤ b))).filter
          (fun t => (findAgeIndex now t params).isNone) := by
  rw [sort_by_age, foldl_sortStep_deletions]
  rfl

/-- The bucket list of sort_by_age, one filter of the sorted input per
tier index.  -/
theorem sort_by_age_backups_eq (now : ℚ) (params : List AgingParam) (bl : List ℚ) :
    (sort_by_age now params bl).backups
      = (List.range params.length).map
          (fun i => (bl.mergeSort (fun a b => decide (a ≤ b))).filter
            (fun t => decide (findAgeIndex now t params = some i))) := by
  have hlen : (sort_by_age now params bl).backups.length = params.length := by
    rw [sort_by_age, foldl_sortStep_length]
    simp
  apply List.ext_getElem?
  intro n
  by_cases h : n < params.length
  · rw [List.getElem?_eq_getElem (by omega), List.getElem?_map, List.getElem?_range h]
    simp only [Option.map_some', Option.some.injEq]
    rw [← List.getD_eq_getElem _ ([] : List ℚ) (by omega), sort_by_age_getD]
  · rw [List.getElem?_eq_none (by omega), List.getElem?_map,
      List.getElem?_eq_none (by simpa using le_of_not_lt h)]
    rfl

theorem mem_sort_by_age_bucket (now : ℚ) (params : List AgingParam) (bl : List ℚ)
    (t : ℚ) (i : ℕ) :
    t ∈ (sort_by_age now params bl).backups.getD i [] ↔
      t ∈ bl ∧ findAgeIndex now t params = some i := by
  rw [sort_by_age_getD, List.mem_filter,
    List.Perm.mem_iff (List.mergeSort_perm bl (fun a b => decide (a ≤ b)))]
  simp

theorem mem_sort_by_age_deletions (now : ℚ) (params : List AgingParam) (bl : List ℚ)
    (t : ℚ) :
    t ∈ (sort_by_age now params bl).deletions ↔
      t ∈ bl ∧ findAgeIndex now t params = none := by
  rw [sort_by_age_deletions, List.mem_filter,
    List.Perm.mem_iff (List.mergeSort_perm bl (fun a b => decide (a ≤ b)))]
  simp

/- ## C4 theorem -/

/-- C4: sort_by_age partitions the classified snapshots: every snapshot of
the input is placed in the deletions or in the bucket of some tier index
below the tier count, a snapshot in the deletions is in no bucket, and no
snapshot is in two distinct buckets.  -/
theorem sort_by_age_partitions (now : ℚ) (params : List AgingParam) (bl : List ℚ) :
    (∀ t ∈ bl, t ∈ (sort_by_age now params bl).deletions ∨
        ∃ i, i < params.length ∧ t ∈ (sort_by_age now params bl).backups.getD i []) ∧
    (∀ t ∈ (sort_by_age now params bl).deletions,
        ∀ i, t ∉ (sort_by_age now params bl).backups.getD i []) ∧
    (∀ t i j, t ∈ (sort_by_age now params bl).backups.getD i [] →
        t ∈ (sort_by_age now params bl).backups.getD j [] → i = j) := by
  refine ⟨?_, ?_, ?_⟩
  · intro t ht
    cases h : findAgeIndex now t params with
    | none => exact Or.inl ((mem_sort_by_age_deletions now params bl t).mpr ⟨ht, h⟩)
    | some i =>
        exact Or.inr ⟨i, findAgeIndex_lt_length now t params i h,
          (mem_sort_by_age_bucket now params bl t i).mpr ⟨ht, h⟩⟩
  · intro t ht i hmem
    rw [mem_sort_by_age_deletions] at ht
    rw [mem_sort_by_age_bucket] at hmem
    rw [ht.2] at hmem
    exact Option.noConfusion hmem.2
  · intro t i j hi hj
    rw [mem_sort_by_age_bucket] at hi hj
    exact Option.some.inj (hi.2.symm.trans hj.2)

/-- Witness for C4: a snapshot older than the single bounded tier lands in
the deletions and is in no bucket.  -/
theorem sort_by_age_partitions_witness :
    (0 : ℚ) ∉ (sort_by_age 5 [⟨1, 2⟩] [0]).backups.getD 0 [] := by
  refine (sort_by_age_partitions 5 [⟨1, 2⟩] [0]).2.1 0 ?_ 0
  refine (mem_sort_by_age_deletions 5 [⟨1, 2⟩] [0] 0).mpr ⟨by simp, ?_⟩
  norm_num [findAgeIndex]

/- ## C5 theorem -/

/-- C5: when every tier bucket has fewer than three members, the pruning
output is exactly the immediate deletions of sort_by_age, with no
tier-internal thinning deletions.  -/
theorem prune_no_tier_thinning (now : ℚ) (params : List AgingParam) (bl : List ℚ)
    (h : ∀ b ∈ (sort_by_age now params bl).backups, b.length < 3) :
    prune_deletions now params bl = (sort_by_age now params bl).deletions := by
  simp only [prune_deletions]
  have hnil : (((sort_by_age now params bl).backups.zip params).map
      (fun bp => tierDeletions bp.2.spacing bp.1)).flatten = [] := by
    rw [List.flatten_eq_nil_iff]
    intro l hl
    rw [List.mem_map] at hl
    obtain ⟨bp, hbp, rfl⟩ := hl
    have hb := (List.of_mem_zip hbp).1
    simp only [tierDeletions, if_pos (h bp.1 hb)]
  rw [hnil, List.append_nil]

/-- Witness for C5 with two snapshots in a single unbounded tier.  -/
theorem prune_no_tier_thinning_witness :
    prune_deletions 0 [⟨1, -1⟩] [0, 1] = (sort_by_age 0 [⟨1, -1⟩] [0, 1]).deletions := by
  apply prune_no_tier_thinning
  intro b hb
  rw [sort_by_age_backups_eq,
    List.mergeSort_eq_self (by norm_num [List.sorted_cons])] at hb
  simp only [List.length_cons, List.length_nil, List.range_succ, List.range_zero,
    List.nil_append, List.map_cons, List.map_nil] at hb
  norm_num [findAgeIndex, List.filter] at hb
  rw [hb]
  simp

/- ## C3 theorem -/

theorem findAgeIndex_eq_findIdx (now t : ℚ) (params : List AgingParam) :
    findAgeIndex now t params
      = params.findIdx? (fun p => decide (now - t < p.bound ∨ p.bound = -1)) := by
  induction params with
  | nil => rfl
  | cons p ps ih =>
      rw [findAgeIndex, List.findIdx?_cons]
      by_cases h : now - t < p.bound ∨ p.bound = -1
      · simp [h]
      · simp [h, ih]

/-- C3: the tier scan of sort_by_age picks the first tier index whose
bound strictly exceeds the age or whose bound is minus one; a classified
snapshot of the input lands in the bucket of its index; a snapshot with no
accepting tier lands in the immediate deletions; and the comparison is
half-open, so at age exactly equal to the bound the snapshot skips the
tier (falling to the deletions when no unbounded tier exists, and to the
next coarser tier otherwise).  -/
theorem findAgeIndex_first_tier (now t : ℚ) (params : List AgingParam) (bl : List ℚ) :
    (findAgeIndex now t params
        = params.findIdx? (fun p => decide (now - t < p.bound ∨ p.bound = -1))) ∧
    (t ∈ bl → ∀ i, findAgeIndex now t params = some i →
        t ∈ (sort_by_age now params bl).backups.getD i []) ∧
    (t ∈ bl → findAgeIndex now t params = none →
        t ∈ (sort_by_age now params bl).deletions) ∧
    findAgeIndex 2 0 [⟨1, 2⟩] = none ∧
    findAgeIndex 2 0 [⟨1, 2⟩, ⟨1, -1⟩] = some 1 := by
  refine ⟨findAgeIndex_eq_findIdx now t params, ?_, ?_, ?_, ?_⟩
  · intro ht i hi
    exact (mem_sort_by_age_bucket now params bl t i).mpr ⟨ht, hi⟩
  · intro ht hn
    exact (mem_sort_by_age_deletions now params bl t).mpr ⟨ht, hn⟩
  · norm_num [findAgeIndex]
  · norm_num [findAgeIndex]

/-- Witness for C3: a snapshot of age five with a single tier bounded at
two is assigned no tier and joins the immediate deletions.  -/
theorem findAgeIndex_first_tier_witness :
    (0 : ℚ) ∈ (sort_by_age 5 [⟨1, 2⟩] [0]).deletions :=
  (findAgeIndex_first_tier 5 0 [⟨1, 2⟩] [0]).2.2.1 (by simp)
    (by norm_num [findAgeIndex])

/- ## C2 theorem -/

/-- C2: the thinning walk deletes a candidate exactly when its distance to
the kept reference is below the spacing and otherwise promotes it to the
new reference; a tier of at least three members drops its newest member
and walks the rest from the oldest as initial reference; and on the
concrete five-snapshot tier at hours 0, 1/4, 1/2, 3/4 and 1 with spacing
one hour, the pruning deletions are exactly the three middle snapshots,
the reference staying at 0 throughout.  -/
theorem thinWalk_spec_and_scenario :
    (∀ (sp prev c : ℚ) (rest : List ℚ),
        thinWalk sp prev (c :: rest)
          = if c - prev < sp then c :: thinWalk sp prev rest
            else thinWalk sp c rest) ∧
    (∀ (sp prev z : ℚ) (mid : List ℚ),
        tierDeletions sp (prev :: mid ++ [z]) = thinWalk sp prev mid) ∧
    prune_deletions 1 [⟨1, -1⟩] [0, 1/4, 1/2, 3/4, 1] = [1/4, 1/2, 3/4] := by
  refine ⟨fun sp prev c rest => rfl, ?_, ?_⟩
  · intro sp prev z mid
    cases mid with
    | nil => simp [tierDeletions, thinWalk]
    | cons m ms =>
        have h3 : ¬ ((prev :: (m :: ms) ++ [z]).length < 3) := by
          simp
        have hdl : (prev :: (m :: ms) ++ [z]).dropLast = prev :: m :: ms := by
          rw [show prev :: (m :: ms) ++ [z] = (prev :: m :: ms) ++ [z] from rfl,
            List.dropLast_concat]
        simp only [tierDeletions, if_neg h3, hdl]
  · have hs : ([0, 1/4, 1/2, 3/4, 1] : List ℚ).mergeSort (fun a b => decide (a ≤ b))
        = [0, 1/4, 1/2, 3/4, 1] := by
      apply List.mergeSort_eq_self
      norm_num [List.sorted_cons]
    simp only [prune_deletions, sort_by_age_deletions, sort_by_age_backups_eq, hs]
    norm_num [findAgeIndex, List.filter, tierDeletions, thinWalk, List.range_succ]

/- ## C1 helper lemmas -/

theorem thinWalk_subset (sp prev : ℚ) (l : List ℚ) :
    ∀ x ∈ thinWalk sp prev l, x ∈ l := by
  induction l generalizing prev with
  | nil => simp [thinWalk]
  | cons b rest ih =>
      intro x hx
      rw [thinWalk] at hx
      split at hx
      · rcases List.mem_cons.mp hx with rfl | hx2
        · exact List.mem_cons_self _ _
        · exact List.mem_cons_of_mem _ (ih prev x hx2)
      · exact List.mem_cons_of_mem _ (ih b x hx)

theorem tierDeletions_subset (sp : ℚ) (s : List ℚ) :
    ∀ x ∈ tierDeletions sp s, x ∈ s.dropLast.tail := by
  intro x hx
  rw [tierDeletions] at hx
  split at hx
  · simp at hx
  · cases hd : s.dropLast with
    | nil => rw [hd] at hx; simp at hx
    | cons prev rest =>
        rw [hd] at hx
        exact thinWalk_subset sp prev rest x hx

theorem mem_dropLast_tail (l : List ℚ) : ∀ x ∈ l.dropLast.tail, x ∈ l.tail := by
  cases l with
  | nil => simp
  | cons a t =>
      cases t with
      | nil => simp
      | cons m ms =>
          intro x hx
          rw [List.dropLast_cons₂] at hx
          exact (List.dropLast_sublist (m :: ms)).subset hx

theorem mem_of_mem_dropLast_tail (L : List ℚ) (x : ℚ) (hx : x ∈ L.dropLast.tail) :
    x ∈ L :=
  (List.dropLast_sublist L).subset ((List.tail_sublist L.dropLast).subset hx)

theorem sorted_mergeSort_le (bl : List ℚ) :
    (bl.mergeSort (fun a b => decide (a ≤ b))).Sorted (· ≤ ·) := by
  have h : List.Pairwise (fun a b : ℚ => decide (a ≤ b) = true)
      (bl.mergeSort (fun a b => decide (a ≤ b))) := by
    apply List.sorted_mergeSort
    · intro a b c hab hbc
      simp only [decide_eq_true_eq] at hab hbc ⊢
      exact le_trans hab hbc
    · intro a b
      simpa using le_total a b
  exact h.imp (fun hab => by simpa using hab)

/- ## C1 theorem -/

/-- C1: over any snapshot list without duplicate labels, any reference
time and any tier table, the oldest and newest member of every populated
tier bucket are absent from the pruning deletions; the head of the bucket
is its oldest member and the final element its newest, since buckets are
sorted ascending.  -/
theorem prune_keeps_oldest_newest (now : ℚ) (params : List AgingParam) (bl : List ℚ)
    (hnd : bl.Nodup) (i : ℕ) (b : List ℚ)
    (hb : (sort_by_age now params bl).backups.getD i [] = b) (hne : b ≠ []) :
    (∀ x ∈ b, b.head hne ≤ x ∧ x ≤ b.getLast hne) ∧
    b.head hne ∉ prune_deletions now params bl ∧
    b.getLast hne ∉ prune_deletions now params bl := by
  have hsort : (bl.mergeSort (fun a b => decide (a ≤ b))).Sorted (· ≤ ·) :=
    sorted_mergeSort_le bl
  have hnds : (bl.mergeSort (fun a b => decide (a ≤ b))).Nodup :=
    ((List.mergeSort_perm bl (fun a b => decide (a ≤ b))).nodup_iff).mpr hnd
  have hbf : b = (bl.mergeSort (fun a b => decide (a ≤ b))).filter
      (fun t => decide (findAgeIndex now t params = some i)) := by
    rw [← hb, sort_by_age_getD]
  have hbsorted : b.Sorted (· ≤ ·) := by
    rw [hbf]
    exact List.Pairwise.filter _ hsort
  have hbnd : b.Nodup := by
    rw [hbf]
    exact List.Nodup.filter _ hnds
  have hclass : ∀ x ∈ b, findAgeIndex now x params = some i := by
    intro x hx
    rw [hbf, List.mem_filter] at hx
    simpa using hx.2
  have hhead : ∀ x ∈ b, b.head hne ≤ x := by
    intro x hx
    have hcons := List.head_cons_tail b hne
    rw [← hcons] at hbsorted hx
    rcases List.mem_cons.mp hx with h1 | h2
    · rw [h1]
    · exact ((List.sorted_cons.mp hbsorted).1 x h2)
  have hlast : ∀ x ∈ b, x ≤ b.getLast hne := by
    intro x hx
    have hdec := List.dropLast_append_getLast hne
    rw [← hdec] at hbsorted hx
    have hpa := List.pairwise_append.mp hbsorted
    rcases List.mem_append.mp hx with h1 | h2
    · exact hpa.2.2 x h1 (b.getLast hne) (by simp)
    · simp at h2
      rw [h2]
  have hprune : ∀ x, x ∈ prune_deletions now params bl →
      (findAgeIndex now x params = none) ∨
      ∃ j, x ∈ ((bl.mergeSort (fun a b => decide (a ≤ b))).filter
        (fun t => decide (findAgeIndex now t params = some j))).dropLast.tail := by
    intro x hx
    simp only [prune_deletions] at hx
    rcases List.mem_append.mp hx with h1 | h2
    · left
      rw [sort_by_age_deletions, List.mem_filter] at h1
      simpa using h1.2
    · right
      rw [List.mem_flatten] at h2
      obtain ⟨l, hl, hxl⟩ := h2
      rw [List.mem_map] at hl
      obtain ⟨bp, hbp, rfl⟩ := hl
      have hsub := (List.of_mem_zip hbp).1
      rw [sort_by_age_backups_eq, List.mem_map] at hsub
      obtain ⟨j, _, hfj⟩ := hsub
      exact ⟨j, hfj ▸ tierDeletions_subset bp.2.spacing bp.1 x hxl⟩
  refine ⟨fun x hx => ⟨hhead x hx, hlast x hx⟩, ?_, ?_⟩
  · intro hmem
    rcases hprune _ hmem with h1 | ⟨j, hj⟩
    · rw [hclass _ (List.head_mem hne)] at h1
      exact Option.noConfusion h1
    · have hxin : b.head hne ∈ (bl.mergeSort (fun a b => decide (a ≤ b))).filter
          (fun t => decide (findAgeIndex now t params = some j)) :=
        mem_of_mem_dropLast_tail _ _ hj
      rw [List.mem_filter] at hxin
      have hji : j = i := by
        have h1 := hxin.2
        simp only [decide_eq_true_eq] at h1
        have h2 := hclass _ (List.head_mem hne)
        exact Option.some.inj (h1.symm.trans h2)
      rw [hji, ← hbf] at hj
      have htail : b.head hne ∈ b.tail := mem_dropLast_tail b _ hj
      have hcons := List.head_cons_tail b hne
      rw [← hcons] at hbnd
      exact (List.nodup_cons.mp hbnd).1 htail
  · intro hmem
    rcases hprune _ hmem with h1 | ⟨j, hj⟩
    · rw [hclass _ (List.getLast_mem hne)] at h1
      exact Option.noConfusion h1
    · have hxin : b.getLast hne ∈ (bl.mergeSort (fun a b => decide (a ≤ b))).filter
          (fun t => decide (findAgeIndex now t params = some j)) :=
        mem_of_mem_dropLast_tail _ _ hj
      rw [List.mem_filter] at hxin
      have hji : j = i := by
        have h1 := hxin.2
        simp only [decide_eq_true_eq] at h1
        have h2 := hclass _ (List.getLast_mem hne)
        exact Option.some.inj (h1.symm.trans h2)
      rw [hji, ← hbf] at hj
      have hdrop : b.getLast hne ∈ b.dropLast :=
        (List.tail_sublist b.dropLast).subset hj
      have hdec := List.dropLast_append_getLast hne
      rw [← hdec] at hbnd
      have hdisj := (List.nodup_append.mp hbnd).2.2
      exact hdisj hdrop (by simp)

/-- Witness for C1: three snapshots in one unbounded tier at unit spacing;
the oldest and the newest survive pruning.  -/
theorem prune_keeps_oldest_newest_witness :
    (0 : ℚ) ∉ prune_deletions 0 [⟨1, -1⟩] [0, 1, 2] ∧
    (2 : ℚ) ∉ prune_deletions 0 [⟨1, -1⟩] [0, 1, 2] := by
  have hb : (sort_by_age 0 [⟨1, -1⟩] [0, 1, 2]).backups.getD 0 []
      = [0, 1, 2] := by
    rw [sort_by_age_getD,
      List.mergeSort_eq_self (by norm_num [List.sorted_cons])]
    norm_num [findAgeIndex, List.filter]
  have h := prune_keeps_oldest_newest 0 [⟨1, -1⟩] [0, 1, 2]
    (by norm_num) 0 [0, 1, 2] hb (by simp)
  exact ⟨h.2.1, h.2.2⟩

/- ## Backup orchestrator

The run-level control flow of main, wsbackup.py lines 583 to 589: the
Backup constructor acquires the lock (parse and log setup precede the lock
and are outside this model), the with-statement body runs process_backup,
lines 315 to 325, and the exit handler, lines 156 to 163, invokes cleanup,
lines 284 to 289, which removes the lock file.  When the constructor
raises the lock-held error the with-body is never entered and no exit
handler runs, so the lock file of the running owner is untouched.  Each
external stage is modelled by a success flag; a false flag stands for the
stage raising, which propagates to the exit handler.  -/

/-- Ambient facts for one orchestrator run.  -/
structure RunEnv where
  pid : ℕ
  kill : ℕ → KillOutcome
  initialLock : Option ℕ
  validateOk : Bool
  transferOk : Bool
  rsync_opts : List String
  updateLatestOk : Bool
  pruneOk : Bool
  transferLogOk : Bool

/-- Observable outcome of one orchestrator run.  -/
structure RunResult where
  lockfile : Option ℕ
  lockHeldAbort : Bool
  snapshotCreated : Bool
  latestUpdated : Bool
  deletionsExecuted : Bool
  succeeded : Bool
deriving DecidableEq

/-- The with-body and exit handler once the lock is acquired:
validate_host, transfer_files (whose result is the negation of is_dry_run
on success, line 482, so Finalizing and Pruning are skipped on a dry run,
lines 319 to 321), update_latest, prune_backup, transfer_log; whether the
body returns or raises, cleanup removes the lock file.  A failing
update_latest is modelled after its initial staging rename; a failing
prune_backup is modelled before any deletion runs; neither choice affects
the lock or the dry-run behaviour.  -/
def process_backup (env : RunEnv) : RunResult :=
  if !env.validateOk then
    { lockfile := none, lockHeldAbort := false, snapshotCreated := false,
      latestUpdated := false, deletionsExecuted := false, succeeded := false }
  else if !env.transferOk then
    { lockfile := none, lockHeldAbort := false, snapshotCreated := false,
      latestUpdated := false, deletionsExecuted := false, succeeded := false }
  else if is_dry_run env.rsync_opts then
    { lockfile := none, lockHeldAbort := false, snapshotCreated := false,
      latestUpdated := false, deletionsExecuted := false, succeeded := true }
  else if !env.updateLatestOk then
    { lockfile := none, lockHeldAbort := false, snapshotCreated := true,
      latestUpdated := false, deletionsExecuted := false, succeeded := false }
  else if !env.pruneOk then
    { lockfile := none, lockHeldAbort := false, snapshotCreated := true,
      latestUpdated := true, deletionsExecuted := false, succeeded := false }
  else if !env.transferLogOk then
    { lockfile := none, lockHeldAbort := false, snapshotCreated := true,
      latestUpdated := true, deletionsExecuted := true, succeeded := false }
  else
    { lockfile := none, lockHeldAbort := false, snapshotCreated := true,
      latestUpdated := true, deletionsExecuted := true, succeeded := true }

/-- One full orchestrator run: acquisition failing with the lock held
leaves the lock file untouched and nothing else happens; otherwise the
with-body runs with release on exit.  -/
def runBackup (env : RunEnv) : RunResult :=
  match acquire_lock ⟨env.pid, env.kill⟩ env.initialLock with
  | (lock, .lockHeld _) =>
      { lockfile := lock, lockHeldAbort := true, snapshotCreated := false,
        latestUpdated := false, deletionsExecuted := false, succeeded := false }
  | (_, .acquired _) => process_backup env

theorem process_backup_lockfile (env : RunEnv) :
    (process_backup env).lockfile = none ∧
    (process_backup env).lockHeldAbort = false := by
  rw [process_backup]
  repeat' split
  all_goals exact ⟨rfl, rfl⟩

/- ## C7 theorem -/

/-- C7: on every run in which the lock was acquired, whatever the fate of
the later stages, the lock file is removed on exit; when acquisition
aborts with the lock held by a live owner, the lock file is exactly the
initial one, untouched.  -/
theorem runBackup_lock_released (env : RunEnv) :
    ((runBackup env).lockHeldAbort = false → (runBackup env).lockfile = none) ∧
    ((runBackup env).lockHeldAbort = true →
        (runBackup env).lockfile = env.initialLock) := by
  rw [runBackup]
  cases hacq : acquire_lock ⟨env.pid, env.kill⟩ env.initialLock with
  | mk lock outcome =>
      cases outcome with
      | lockHeld p =>
          have hlock : lock = env.initialLock := by
            cases hinit : env.initialLock with
            | none =>
                rw [hinit] at hacq
                simp only [acquire_lock] at hacq
                simp at hacq
            | some q =>
                rw [hinit] at hacq
                simp only [acquire_lock] at hacq
                split at hacq
                · exact (congrArg Prod.fst hacq).symm
                · exact absurd (congrArg Prod.snd hacq) (by simp)
          refine ⟨fun h => ?_, fun _ => hlock⟩
          simp at h
      | acquired w =>
          refine ⟨fun _ => (process_backup_lockfile env).1, fun h => ?_⟩
          exact absurd ((process_backup_lockfile env).2.symm.trans h) (by simp)

/-- Witness for C7: a run over a ghost lock ends with the lock removed,
and a run against a live owner leaves the lock in place.  -/
theorem runBackup_lock_released_witness :
    (runBackup ⟨1, fun _ => .errNoSuchProcess, some 5, true, true, [], true, true,
        true⟩).lockfile = none ∧
    (runBackup ⟨1, fun _ => .success, some 5, true, true, [], true, true,
        true⟩).lockfile = some 5 :=
  ⟨(runBackup_lock_released ⟨1, fun _ => .errNoSuchProcess, some 5, true, true, [],
      true, true, true⟩).1 rfl,
   (runBackup_lock_released ⟨1, fun _ => .success, some 5, true, true, [],
      true, true, true⟩).2 rfl⟩

/- ## C8 theorem -/

/-- C8: when the merged option set carries a dry-run flag and the run gets
past validation and the transfer invocation, the run is successful while
finalizing and pruning are skipped: no staging rename, no latest update,
no deletion, and the lock is released.  -/
theorem runBackup_dry_run (env : RunEnv)
    (hdry : is_dry_run env.rsync_opts = true)
    (hv : env.validateOk = true) (ht : env.transferOk = true)
    (hl : (runBackup env).lockHeldAbort = false) :
    (runBackup env).succeeded = true ∧
    (runBackup env).snapshotCreated = false ∧
    (runBackup env).latestUpdated = false ∧
    (runBackup env).deletionsExecuted = false ∧
    (runBackup env).lockfile = none := by
  have hres : runBackup env
      = { lockfile := none, lockHeldAbort := false, snapshotCreated := false,
          latestUpdated := false, deletionsExecuted := false, succeeded := true }
      ∨ (runBackup env).lockHeldAbort = true := by
    rw [runBackup]
    cases hacq : acquire_lock ⟨env.pid, env.kill⟩ env.initialLock with
    | mk lock outcome =>
        cases outcome with
        | lockHeld p => exact Or.inr rfl
        | acquired w =>
            left
            show process_backup env = _
            simp [process_backup, hv, ht, hdry]
  rcases hres with h | h
  · rw [h]
    exact ⟨rfl, rfl, rfl, rfl, rfl⟩
  · rw [hl] at h
    simp at h

/-- Witness for C8: a dry-run invocation with no pre-existing lock.  -/
theorem runBackup_dry_run_witness :
    (runBackup ⟨1, fun _ => .errNoSuchProcess, none, true, true, ["--dry-run"],
        true, true, true⟩).succeeded = true ∧
    (runBackup ⟨1, fun _ => .errNoSuchProcess, none, true, true, ["--dry-run"],
        true, true, true⟩).snapshotCreated = false ∧
    (runBackup ⟨1, fun _ => .errNoSuchProcess, none, true, true, ["--dry-run"],
        true, true, true⟩).latestUpdated = false ∧
    (runBackup ⟨1, fun _ => .errNoSuchProcess, none, true, true, ["--dry-run"],
        true, true, true⟩).deletionsExecuted = false ∧
    (runBackup ⟨1, fun _ => .errNoSuchProcess, none, true, true, ["--dry-run"],
        true, true, true⟩).lockfile = none :=
  runBackup_dry_run
    ⟨1, fun _ => .errNoSuchProcess, none, true, true, ["--dry-run"], true, true, true⟩
    (by decide) rfl rfl rfl

end WSBackup
